import Mathlib

/-!
Shallow embedding of the core algorithms of the magnetic-field mapping
application (`web-app/lib/interpolation.ts`):

* `getPositionFromAcceleration` — trajectory reconstruction by double
  integration of acceleration (semi-implicit Euler);
* `interpolateMagneticField` — radius-limited averaging of the magnetic
  magnitude onto a regular lattice over the bounding box of the positions.

Numbers are modelled by `ℚ` (exact arithmetic).  The `for` loops of the
interpolator can genuinely diverge when the computed cell size is not
positive, so they are modelled with explicit fuel: `none` means the loop
has not terminated within the given fuel.
-/

/-- A sensor measurement, restricted to the fields the core algorithms read
(`web-app/lib/types`): timestamp in milliseconds, session name,
gravity-compensated acceleration components, and the precomputed magnetic
magnitude. -/
structure Measurement where
  timestamp : ℚ
  session_name : String
  acceleration_x : ℚ
  acceleration_y : ℚ
  acceleration_z : ℚ
  magnetic_magnitude : ℚ
deriving DecidableEq

/-- A reconstructed position (`web-app/lib/types`): dead-reckoned coordinates
plus the timestamp, session name and magnetic magnitude copied from the source
measurement. -/
structure Position where
  x : ℚ
  y : ℚ
  z : ℚ
  timestamp : ℚ
  session_name : String
  magnetic_magnitude : ℚ
deriving DecidableEq

/-- The body of the `measurements.forEach` loop of
`getPositionFromAcceleration` (web-app/lib/interpolation.ts, lines 54-80):
with running velocity `(vx,vy,vz)`, position `(px,py,pz)` and
`lastTimestamp`, process the remaining measurements in order.  For each one,
`dt = (timestamp - lastTimestamp) / 1000`, the velocity is updated first and
the position update then uses the already-updated velocity (semi-implicit
Euler); a `Position` carrying the accumulated coordinates and the
measurement's timestamp, session name and magnetic magnitude is emitted. -/
def integrate (lastTimestamp vx vy vz px py pz : ℚ) :
    List Measurement → List Position
  | [] => []
  | m :: rest =>
    let dt := (m.timestamp - lastTimestamp) / 1000
    let vx' := vx + m.acceleration_x * dt
    let vy' := vy + m.acceleration_y * dt
    let vz' := vz + m.acceleration_z * dt
    let px' := px + vx' * dt
    let py' := py + vy' * dt
    let pz' := pz + vz' * dt
    { x := px', y := py', z := pz', timestamp := m.timestamp,
      session_name := m.session_name,
      magnetic_magnitude := m.magnetic_magnitude }
      :: integrate m.timestamp vx' vy' vz' px' py' pz' rest

/-- `getPositionFromAcceleration` (web-app/lib/interpolation.ts, lines 46-83):
seeds zero velocity and position and `lastTimestamp` from the first
measurement, skips index 0, and integrates the rest.  On an empty array the
source faults reading `measurements[0].timestamp` (undefined element access);
this is modelled by `none`. -/
def getPositionFromAcceleration : List Measurement → Option (List Position)
  | [] => none
  | m0 :: rest => some (integrate m0.timestamp 0 0 0 0 0 0 rest)

/-- A grid cell of the interpolation output (web-app/lib/interpolation.ts,
line 19): lattice coordinates and the averaged magnitude. -/
structure GridCell where
  x : ℚ
  y : ℚ
  value : ℚ
deriving DecidableEq

/-- Minimum of the `x` coordinates, as `turf.bbox` computes `bounds[0]`
(web-app/lib/interpolation.ts, line 16) over a non-empty collection; the
`[]` case is arbitrary (the embedding of `interpolateMagneticField` returns
before reading the bounding box of an empty collection). -/
def bboxMinX : List Position → ℚ
  | [] => 0
  | p :: rest => rest.foldl (fun m q => min m q.x) p.x

/-- Minimum of the `y` coordinates (`bounds[1]`). -/
def bboxMinY : List Position → ℚ
  | [] => 0
  | p :: rest => rest.foldl (fun m q => min m q.y) p.y

/-- Maximum of the `x` coordinates (`bounds[2]`). -/
def bboxMaxX : List Position → ℚ
  | [] => 0
  | p :: rest => rest.foldl (fun m q => max m q.x) p.x

/-- Maximum of the `y` coordinates (`bounds[3]`). -/
def bboxMaxY : List Position → ℚ
  | [] => 0
  | p :: rest => rest.foldl (fun m q => max m q.y) p.y

/-- Modelled from the spec: the distance test of the filter at
web-app/lib/interpolation.ts, lines 23-29, calls `turf.distance` with units
meters, a library function whose source is not part of this repository; the
spec describes the selection as planar straight-line distance in meters.
`withinRadius gx gy radius p` decides `planarDistance((gx,gy),(p.x,p.y)) ≤
radius`, equivalently stated by squaring so it stays inside `ℚ` (a planar
distance is non-negative, so for a negative radius no point qualifies). -/
def withinRadius (gx gy radius : ℚ) (p : Position) : Bool :=
  decide (0 ≤ radius) &&
    decide ((p.x - gx) ^ 2 + (p.y - gy) ^ 2 ≤ radius ^ 2)

/-- The body of the inner loop (web-app/lib/interpolation.ts, lines 23-39)
at lattice point `(gx, gy)`: filter the positions within `radius`, and if at
least one qualifies produce a cell whose value is their summed magnitude
divided by their count. -/
def cellAt (positions : List Position) (radius gx gy : ℚ) : Option GridCell :=
  let nearbyPoints := positions.filter (withinRadius gx gy radius)
  if 0 < nearbyPoints.length then
    some { x := gx, y := gy,
           value := (nearbyPoints.map Position.magnetic_magnitude).sum
             / (nearbyPoints.length : ℚ) }
  else none

/-- The sequence of loop-counter values visited by
`for (let v = start; v <= upper; v += step)`, with fuel: `none` when the
loop has not exited within `fuel` iterations. -/
def stepPoints (step upper : ℚ) : Nat → ℚ → Option (List ℚ)
  | 0, v => if v ≤ upper then none else some []
  | n + 1, v =>
    if v ≤ upper then (stepPoints step upper n (v + step)).map (v :: ·)
    else some []

/-- The inner `for` loop over `y` (web-app/lib/interpolation.ts, lines
22-40) at column `x`, with fuel. -/
def innerLoop (positions : List Position) (radius x yMax step : ℚ) :
    Nat → ℚ → Option (List GridCell)
  | 0, y => if y ≤ yMax then none else some []
  | n + 1, y =>
    if y ≤ yMax then
      (innerLoop positions radius x yMax step n (y + step)).map
        (fun rest => (cellAt positions radius x y).toList ++ rest)
    else some []

/-- The outer `for` loop over `x` (web-app/lib/interpolation.ts, lines
21-41), with fuel; each iteration runs the inner loop from `yMin` with
`innerFuel`. -/
def outerLoop (positions : List Position)
    (radius xMax yMin yMax step : ℚ) (innerFuel : Nat) :
    Nat → ℚ → Option (List GridCell)
  | 0, x => if x ≤ xMax then none else some []
  | n + 1, x =>
    if x ≤ xMax then
      match innerLoop positions radius x yMax step innerFuel yMin,
          outerLoop positions radius xMax yMin yMax step innerFuel n
            (x + step) with
      | some row, some rest => some (row ++ rest)
      | _, _ => none
    else some []

/-- `interpolateMagneticField` (web-app/lib/interpolation.ts, lines 5-44):
bounding box over the positions, `cellSize = (maxX - minX) / gridSize`, then
the nested lattice loops.  On an empty collection `turf.bbox` yields an
inverted infinite box, so both loops run zero iterations and the grid is
empty; the embedding returns `some []` directly in that case.  `none` means
the loops did not terminate within `fuel` iterations. -/
def interpolateMagneticField (positions : List Position)
    (gridSize radius : ℚ) (fuel : Nat) : Option (List GridCell) :=
  match positions with
  | [] => some []
  | _ :: _ =>
    let cellSize := (bboxMaxX positions - bboxMinX positions) / gridSize
    outerLoop positions radius (bboxMaxX positions) (bboxMinY positions)
      (bboxMaxY positions) cellSize fuel fuel (bboxMinX positions)

/-- The `x` values of the lattice points visited by the outer loop. -/
def latticeXs (positions : List Position) (gridSize : ℚ) (fuel : Nat) :
    Option (List ℚ) :=
  stepPoints ((bboxMaxX positions - bboxMinX positions) / gridSize)
    (bboxMaxX positions) fuel (bboxMinX positions)

/-- The `y` values of the lattice points visited by each inner loop. -/
def latticeYs (positions : List Position) (gridSize : ℚ) (fuel : Nat) :
    Option (List ℚ) :=
  stepPoints ((bboxMaxX positions - bboxMinX positions) / gridSize)
    (bboxMaxY positions) fuel (bboxMinY positions)

/-- The loop state of the Reconstructor recurrence as the spec (§4.1) words
it: a velocity, a position, the timestamp of the previously processed
measurement, and the positions emitted so far. -/
structure FoldState where
  vx : ℚ
  vy : ℚ
  vz : ℚ
  px : ℚ
  py : ℚ
  pz : ℚ
  last_ts : ℚ
  out : List Position

/-- One step of the Reconstructor recurrence exactly as the spec (§4.1)
words it: `dt = (timestamp_i - last_ts) / 1000` (not clamped), then
`v += a_i * dt` component-wise, then `p += v * dt` component-wise with the
already-updated velocity, then emit a `Position` carrying `p` and the
measurement's timestamp, session name and magnetic magnitude, then
`last_ts = timestamp_i`.  Used to compare the source embedding against the
spec's recurrence. -/
def specStep (s : FoldState) (m : Measurement) : FoldState :=
  let dt := (m.timestamp - s.last_ts) / 1000
  let vx := s.vx + m.acceleration_x * dt
  let vy := s.vy + m.acceleration_y * dt
  let vz := s.vz + m.acceleration_z * dt
  let px := s.px + vx * dt
  let py := s.py + vy * dt
  let pz := s.pz + vz * dt
  let pos : Position :=
    { x := px, y := py, z := pz, timestamp := m.timestamp,
      session_name := m.session_name,
      magnetic_magnitude := m.magnetic_magnitude }
  { vx := vx, vy := vy, vz := vz, px := px, py := py, pz := pz,
    last_ts := m.timestamp, out := s.out ++ [pos] }

/-- The Reconstructor as the spec (§4.1) words it: a fold of `specStep`
over every measurement after the first, starting from zero velocity, zero
position and `last_ts` = timestamp of the first measurement; the result is
the emitted sequence.  An empty sequence is invalid (`none`). -/
def reconstructSpec : List Measurement → Option (List Position)
  | [] => none
  | m0 :: rest =>
    some (rest.foldl specStep
      { vx := 0, vy := 0, vz := 0, px := 0, py := 0, pz := 0,
        last_ts := m0.timestamp, out := [] }).out

/-- Add a constant offset to a measurement's timestamp. -/
def shiftMeasurement (c : ℚ) (m : Measurement) : Measurement :=
  { m with timestamp := m.timestamp + c }

/-- Add a constant offset to a position's timestamp. -/
def shiftPosition (c : ℚ) (p : Position) : Position :=
  { p with timestamp := p.timestamp + c }

lemma integrate_length (ms : List Measurement)
    (lastTimestamp vx vy vz px py pz : ℚ) :
    (integrate lastTimestamp vx vy vz px py pz ms).length = ms.length := by
  induction ms generalizing lastTimestamp vx vy vz px py pz with
  | nil => simp [integrate]
  | cons m rest ih => simp [integrate, ih]

lemma integrate_map_timestamp (ms : List Measurement)
    (lastTimestamp vx vy vz px py pz : ℚ) :
    (integrate lastTimestamp vx vy vz px py pz ms).map Position.timestamp
      = ms.map Measurement.timestamp := by
  induction ms generalizing lastTimestamp vx vy vz px py pz with
  | nil => simp [integrate]
  | cons m rest ih => simp [integrate, ih]

lemma integrate_map_session (ms : List Measurement)
    (lastTimestamp vx vy vz px py pz : ℚ) :
    (integrate lastTimestamp vx vy vz px py pz ms).map Position.session_name
      = ms.map Measurement.session_name := by
  induction ms generalizing lastTimestamp vx vy vz px py pz with
  | nil => simp [integrate]
  | cons m rest ih => simp [integrate, ih]

lemma integrate_map_magnitude (ms : List Measurement)
    (lastTimestamp vx vy vz px py pz : ℚ) :
    (integrate lastTimestamp vx vy vz px py pz ms).map
        Position.magnetic_magnitude
      = ms.map Measurement.magnetic_magnitude := by
  induction ms generalizing lastTimestamp vx vy vz px py pz with
  | nil => simp [integrate]
  | cons m rest ih => simp [integrate, ih]

lemma innerLoop_eq_stepPoints (positions : List Position)
    (radius x yMax step : ℚ) (n : Nat) (y : ℚ) :
    innerLoop positions radius x yMax step n y
      = (stepPoints step yMax n y).map
          (fun ys => ys.flatMap (fun gy => (cellAt positions radius x gy).toList)) := by
  induction n generalizing y with
  | zero =>
    by_cases h : y ≤ yMax <;> simp [innerLoop, stepPoints, h]
  | succ n ih =>
    by_cases h : y ≤ yMax
    · rw [innerLoop, if_pos h, ih, stepPoints, if_pos h]
      cases stepPoints step yMax n (y + step) <;> simp
    · simp [innerLoop, stepPoints, h]

lemma outerLoop_eq_stepPoints (positions : List Position)
    (radius xMax yMin yMax step : ℚ) (innerFuel : Nat) (ys : List ℚ)
    (hys : stepPoints step yMax innerFuel yMin = some ys)
    (n : Nat) (x : ℚ) :
    outerLoop positions radius xMax yMin yMax step innerFuel n x
      = (stepPoints step xMax n x).map
          (fun xs => xs.flatMap (fun gx =>
            ys.flatMap (fun gy => (cellAt positions radius gx gy).toList))) := by
  induction n generalizing x with
  | zero =>
    by_cases h : x ≤ xMax <;> simp [outerLoop, stepPoints, h]
  | succ n ih =>
    by_cases h : x ≤ xMax
    · rw [outerLoop, if_pos h, innerLoop_eq_stepPoints, hys, ih]
      cases hrec : stepPoints step xMax n (x + step) with
      | none => simp [stepPoints, h, hrec]
      | some xs => simp [stepPoints, h, hrec]
    · simp [outerLoop, stepPoints, h]

lemma outerLoop_inner_diverges (positions : List Position)
    (radius xMax yMin yMax step : ℚ) (innerFuel : Nat)
    (hys : stepPoints step yMax innerFuel yMin = none)
    (n : Nat) (x : ℚ) (hx : x ≤ xMax) :
    outerLoop positions radius xMax yMin yMax step innerFuel n x = none := by
  cases n with
  | zero => simp [outerLoop, hx]
  | succ n =>
    rw [outerLoop, if_pos hx, innerLoop_eq_stepPoints, hys]
    simp

lemma stepPoints_nonpos_step (step upper : ℚ) (hstep : step ≤ 0)
    (n : Nat) (v : ℚ) (hv : v ≤ upper) :
    stepPoints step upper n v = none := by
  induction n generalizing v with
  | zero => simp [stepPoints, hv]
  | succ n ih =>
    rw [stepPoints, if_pos hv, ih (v + step) (by linarith)]
    simp

lemma foldl_min_le_foldl_max (f : Position → ℚ) (l : List Position)
    (a b : ℚ) (hab : a ≤ b) :
    l.foldl (fun m q => min m (f q)) a ≤ l.foldl (fun m q => max m (f q)) b := by
  induction l generalizing a b with
  | nil => simpa using hab
  | cons p rest ih =>
    simp only [List.foldl_cons]
    exact ih _ _ (le_trans (min_le_left _ _) (le_trans hab (le_max_left _ _)))

lemma bboxMinX_le_bboxMaxX (positions : List Position)
    (h : positions ≠ []) : bboxMinX positions ≤ bboxMaxX positions := by
  cases positions with
  | nil => exact absurd rfl h
  | cons p rest => exact foldl_min_le_foldl_max Position.x rest p.x p.x le_rfl

lemma bboxMinY_le_bboxMaxY (positions : List Position)
    (h : positions ≠ []) : bboxMinY positions ≤ bboxMaxY positions := by
  cases positions with
  | nil => exact absurd rfl h
  | cons p rest => exact foldl_min_le_foldl_max Position.y rest p.y p.y le_rfl

/-- If `interpolateMagneticField` terminates on a non-empty input, the grid
is precisely the concatenation, over the visited lattice points in loop
order, of the cells `cellAt` emits. -/
lemma interpolate_some_eq (positions : List Position) (gridSize radius : ℚ)
    (fuel : Nat) (grid : List GridCell) (hne : positions ≠ [])
    (h : interpolateMagneticField positions gridSize radius fuel = some grid) :
    ∃ xs ys, latticeXs positions gridSize fuel = some xs ∧
      latticeYs positions gridSize fuel = some ys ∧
      grid = xs.flatMap (fun gx =>
        ys.flatMap (fun gy => (cellAt positions radius gx gy).toList)) := by
  cases positions with
  | nil => exact absurd rfl hne
  | cons p rest =>
    rw [interpolateMagneticField] at h
    cases hys : stepPoints
        ((bboxMaxX (p :: rest) - bboxMinX (p :: rest)) / gridSize)
        (bboxMaxY (p :: rest)) fuel (bboxMinY (p :: rest)) with
    | none =>
      rw [outerLoop_inner_diverges _ _ _ _ _ _ _ hys _ _
        (bboxMinX_le_bboxMaxX _ hne)] at h
      exact absurd h (by simp)
    | some ys =>
      rw [outerLoop_eq_stepPoints _ _ _ _ _ _ _ _ hys] at h
      cases hxs : stepPoints
          ((bboxMaxX (p :: rest) - bboxMinX (p :: rest)) / gridSize)
          (bboxMaxX (p :: rest)) fuel (bboxMinX (p :: rest)) with
      | none => rw [hxs] at h; exact absurd h (by simp)
      | some xs =>
        rw [hxs] at h
        refine ⟨xs, ys, ?_, ?_, ?_⟩
        · rw [latticeXs, hxs]
        · rw [latticeYs, hys]
        · simpa using h.symm

lemma cellAt_eq_some (positions : List Position) (radius gx gy : ℚ)
    (c : GridCell) :
    cellAt positions radius gx gy = some c ↔
      positions.filter (withinRadius gx gy radius) ≠ [] ∧
      c = { x := gx, y := gy,
            value := ((positions.filter (withinRadius gx gy radius)).map
                Position.magnetic_magnitude).sum
              / ((positions.filter (withinRadius gx gy radius)).length : ℚ) } := by
  rw [cellAt]
  by_cases h : 0 < (positions.filter (withinRadius gx gy radius)).length
  · simp only [if_pos h]
    constructor
    · intro hc
      exact ⟨List.length_pos.mp h, (Option.some_inj.mp hc).symm⟩
    · rintro ⟨-, rfl⟩; rfl
  · simp only [if_neg h]
    rw [List.length_pos] at h
    simp [not_not.mp h]

lemma cellAt_neg_radius (positions : List Position) (radius gx gy : ℚ)
    (hr : radius < 0) : cellAt positions radius gx gy = none := by
  have hfilter : positions.filter (withinRadius gx gy radius) = [] := by
    apply List.filter_eq_nil_iff.mpr
    intro p _
    simp [withinRadius, not_le.mpr hr]
  rw [cellAt, hfilter]
  simp

lemma sum_div_length_bounds (l : List ℚ) (hl : l ≠ []) (lo hi : ℚ)
    (h : ∀ x ∈ l, lo ≤ x ∧ x ≤ hi) :
    lo ≤ l.sum / (l.length : ℚ) ∧ l.sum / (l.length : ℚ) ≤ hi := by
  have hlen : 0 < (l.length : ℚ) := by
    exact_mod_cast List.length_pos.mpr hl
  have hsumlo : (l.length : ℚ) * lo ≤ l.sum := by
    have := List.card_nsmul_le_sum l lo (fun x hx => (h x hx).1)
    simpa [nsmul_eq_mul] using this
  have hsumhi : l.sum ≤ (l.length : ℚ) * hi := by
    have := List.sum_le_card_nsmul l hi (fun x hx => (h x hx).2)
    simpa [nsmul_eq_mul] using this
  constructor
  · rw [le_div_iff₀ hlen]; linarith
  · rw [div_le_iff₀ hlen]; linarith

lemma foldl_specStep_out (ms : List Measurement) (s : FoldState) :
    (ms.foldl specStep s).out
      = s.out ++ integrate s.last_ts s.vx s.vy s.vz s.px s.py s.pz ms := by
  induction ms generalizing s with
  | nil => simp [integrate]
  | cons m rest ih =>
    rw [List.foldl_cons, ih]
    simp [specStep, integrate]

lemma integrate_shift (ms : List Measurement)
    (c lastTimestamp vx vy vz px py pz : ℚ) :
    integrate (lastTimestamp + c) vx vy vz px py pz
        (ms.map (shiftMeasurement c))
      = (integrate lastTimestamp vx vy vz px py pz ms).map
          (shiftPosition c) := by
  induction ms generalizing lastTimestamp vx vy vz px py pz with
  | nil => simp [integrate]
  | cons m rest ih =>
    have hdt : m.timestamp + c - (lastTimestamp + c) = m.timestamp - lastTimestamp := by
      ring
    simp [integrate, shiftMeasurement, shiftPosition, hdt, ih]

lemma integrate_zero_accel (ms : List Measurement) (lastTimestamp px py pz : ℚ)
    (hacc : ∀ m ∈ ms, m.acceleration_x = 0 ∧ m.acceleration_y = 0 ∧
      m.acceleration_z = 0) :
    ∀ q ∈ integrate lastTimestamp 0 0 0 px py pz ms,
      q.x = px ∧ q.y = py ∧ q.z = pz := by
  induction ms generalizing lastTimestamp px py pz with
  | nil => simp [integrate]
  | cons m rest ih =>
    intro q hq
    obtain ⟨hx, hy, hz⟩ := hacc m (List.mem_cons_self m rest)
    rw [integrate] at hq
    simp only [hx, hy, hz, zero_mul, add_zero, List.mem_cons] at hq
    rcases hq with rfl | hq
    · exact ⟨rfl, rfl, rfl⟩
    · exact ih m.timestamp px py pz
        (fun m' hm' => hacc m' (List.mem_cons_of_mem m hm')) q hq

/-- C1: for a session of `N ≥ 2` measurements with strictly ascending
timestamps, `getPositionFromAcceleration` returns exactly `N - 1` positions
whose timestamps, session names and magnetic magnitudes are those of input
measurements `1 .. N-1` in input order (position `i` carries the fields of
measurement `i+1`), in strictly increasing timestamp order; a session of a
single measurement yields the empty sequence. -/
theorem C1_reconstruct_counts (ms : List Measurement) :
    (2 ≤ ms.length →
      List.Chain' (· < ·) (ms.map Measurement.timestamp) →
      ∃ ps, getPositionFromAcceleration ms = some ps ∧
        ps.length = ms.length - 1 ∧
        ps.map Position.timestamp = (ms.drop 1).map Measurement.timestamp ∧
        ps.map Position.session_name
          = (ms.drop 1).map Measurement.session_name ∧
        ps.map Position.magnetic_magnitude
          = (ms.drop 1).map Measurement.magnetic_magnitude ∧
        List.Chain' (· < ·) (ps.map Position.timestamp)) ∧
    (ms.length = 1 → getPositionFromAcceleration ms = some []) := by
  constructor
  · intro hlen hchain
    cases ms with
    | nil => simp at hlen
    | cons m0 rest =>
      refine ⟨integrate m0.timestamp 0 0 0 0 0 0 rest, rfl, ?_, ?_, ?_, ?_, ?_⟩
      · simp [integrate_length]
      · simp [integrate_map_timestamp]
      · simp [integrate_map_session]
      · simp [integrate_map_magnitude]
      · rw [integrate_map_timestamp]
        simpa using List.Chain'.tail hchain
  · intro hlen
    cases ms with
    | nil => simp at hlen
    | cons m0 rest =>
      cases rest with
      | nil => simp [getPositionFromAcceleration, integrate]
      | cons m1 rest' => simp at hlen

/-- Witness for C1 at a concrete two-measurement session. -/
theorem C1_reconstruct_counts_witness :
    ∃ ps, getPositionFromAcceleration
        [⟨0, "A", 0, 0, 0, 0⟩, ⟨1000, "A", 1, 0, 0, 10⟩] = some ps ∧
      ps.length = 1 ∧
      ps.map Position.timestamp = [1000] ∧
      ps.map Position.session_name = ["A"] ∧
      ps.map Position.magnetic_magnitude = [10] ∧
      List.Chain' (· < ·) (ps.map Position.timestamp) := by
  simpa using
    (C1_reconstruct_counts
      [⟨0, "A", 0, 0, 0, 0⟩, ⟨1000, "A", 1, 0, 0, 10⟩]).1
      (by norm_num) (by norm_num)

/-- C2: `getPositionFromAcceleration` computes exactly the fold of the
spec's recurrence: `dt = (timestamp_i - last_ts) / 1000` unclamped, then
`v += a_i * dt`, then `p += v * dt` with the already-updated velocity
(semi-implicit Euler), emitting the accumulated `p` after each step,
starting from `v = (0,0,0)`, `p = (0,0,0)` and `last_ts` = timestamp of the
first measurement. -/
theorem C2_euler_recurrence (ms : List Measurement) :
    getPositionFromAcceleration ms = reconstructSpec ms := by
  cases ms with
  | nil => rfl
  | cons m0 rest =>
    simp [getPositionFromAcceleration, reconstructSpec, foldl_specStep_out]

/-- C6 counterexample: on the spec's end-to-end scenario (t=0 accel 0; t=1000
accel (1,0,0) mag 10; t=2000 accel (0,1,0) mag 20) the code does not return
the claimed path, whose second position has `x = 1`. -/
theorem C6_counterexample :
    getPositionFromAcceleration
        [⟨0, "A", 0, 0, 0, 0⟩, ⟨1000, "A", 1, 0, 0, 10⟩,
          ⟨2000, "A", 0, 1, 0, 20⟩]
      ≠ some [⟨1, 0, 0, 1000, "A", 10⟩, ⟨1, 1, 0, 2000, "A", 20⟩] := by
  norm_num [getPositionFromAcceleration, integrate]

/-- C6 amended: on that scenario the path is
`[{x:1,y:0,z:0,mag:10}, {x:2,y:1,z:0,mag:20}]` — the second step compounds
the first step's velocity, so its `x` is `2`, not `1`. -/
theorem C6_amended_path :
    getPositionFromAcceleration
        [⟨0, "A", 0, 0, 0, 0⟩, ⟨1000, "A", 1, 0, 0, 10⟩,
          ⟨2000, "A", 0, 1, 0, 20⟩]
      = some [⟨1, 0, 0, 1000, "A", 10⟩, ⟨2, 1, 0, 2000, "A", 20⟩] := by
  norm_num [getPositionFromAcceleration, integrate]

/-- C7: if every measurement's acceleration components are all zero, every
position the reconstruction returns has coordinates `(0,0,0)`, whatever the
timestamps. -/
theorem C7_zero_acceleration (ms : List Measurement) (ps : List Position)
    (hacc : ∀ m ∈ ms, m.acceleration_x = 0 ∧ m.acceleration_y = 0 ∧
      m.acceleration_z = 0)
    (h : getPositionFromAcceleration ms = some ps) :
    ∀ p ∈ ps, p.x = 0 ∧ p.y = 0 ∧ p.z = 0 := by
  cases ms with
  | nil => simp [getPositionFromAcceleration] at h
  | cons m0 rest =>
    rw [getPositionFromAcceleration] at h
    obtain rfl := Option.some_inj.mp h
    exact integrate_zero_accel rest m0.timestamp 0 0 0
      (fun m hm => hacc m (List.mem_cons_of_mem m0 hm))

/-- Witness for C7 at a concrete zero-acceleration session, instantiated at
the single position it reconstructs. -/
theorem C7_zero_acceleration_witness :
    (⟨0, 0, 0, 500, "A", 7⟩ : Position).x = 0 ∧
      (⟨0, 0, 0, 500, "A", 7⟩ : Position).y = 0 ∧
      (⟨0, 0, 0, 500, "A", 7⟩ : Position).z = 0 :=
  C7_zero_acceleration
    [⟨0, "A", 0, 0, 0, 3⟩, ⟨500, "A", 0, 0, 0, 7⟩]
    [⟨0, 0, 0, 500, "A", 7⟩]
    (by norm_num)
    (by norm_num [getPositionFromAcceleration, integrate])
    ⟨0, 0, 0, 500, "A", 7⟩ (by simp)

/-- C8: both algorithms are deterministic — two calls on identical inputs
return equal outputs; the embedding is a pure function of its arguments, so
there is no hidden state to depend on. -/
theorem C8_deterministic (ms : List Measurement) (positions : List Position)
    (gridSize radius : ℚ) (fuel : Nat) :
    getPositionFromAcceleration ms = getPositionFromAcceleration ms ∧
      interpolateMagneticField positions gridSize radius fuel
        = interpolateMagneticField positions gridSize radius fuel :=
  ⟨rfl, rfl⟩

/-- C10: time-translation invariance — shifting every timestamp by a
constant `c` shifts the output timestamps by `c` and leaves every
coordinate and magnitude unchanged (only timestamp differences enter the
integration). -/
theorem C10_time_translation (ms : List Measurement) (c : ℚ) :
    getPositionFromAcceleration (ms.map (shiftMeasurement c))
      = (getPositionFromAcceleration ms).map (List.map (shiftPosition c)) := by
  cases ms with
  | nil => rfl
  | cons m0 rest =>
    have h0 : (shiftMeasurement c m0).timestamp = m0.timestamp + c := rfl
    simp only [List.map_cons, getPositionFromAcceleration, Option.map_some',
      h0, integrate_shift]

/-- C3: on a terminating call with a non-empty position set, `gridSize ≥ 1`
and `radius > 0`, a cell is emitted at a visited lattice point `(gx, gy)`
iff at least one position lies within `radius` of it, and every cell of the
grid carries the arithmetic mean of the magnetic magnitudes of exactly the
qualifying positions of its lattice point; lattice points with no
qualifying position produce no cell. -/
theorem C3_lattice_cells (positions : List Position) (gridSize radius : ℚ)
    (fuel : Nat) (grid : List GridCell)
    (hne : positions ≠ []) (hg : 1 ≤ gridSize) (hr : 0 < radius)
    (h : interpolateMagneticField positions gridSize radius fuel = some grid) :
    ∃ xs ys, latticeXs positions gridSize fuel = some xs ∧
      latticeYs positions gridSize fuel = some ys ∧
      ∀ gx ∈ xs, ∀ gy ∈ ys,
        ((∃ c ∈ grid, c.x = gx ∧ c.y = gy) ↔
          positions.filter (withinRadius gx gy radius) ≠ []) ∧
        ∀ c ∈ grid, c.x = gx → c.y = gy →
          c.value = ((positions.filter (withinRadius gx gy radius)).map
              Position.magnetic_magnitude).sum
            / ((positions.filter (withinRadius gx gy radius)).length : ℚ) := by
  obtain ⟨xs, ys, hxs, hys, rfl⟩ :=
    interpolate_some_eq positions gridSize radius fuel grid hne h
  refine ⟨xs, ys, hxs, hys, ?_⟩
  intro gx hgx gy hgy
  have hmem : ∀ c : GridCell,
      (c ∈ xs.flatMap (fun a =>
        ys.flatMap fun b => (cellAt positions radius a b).toList))
        ↔ ∃ a ∈ xs, ∃ b ∈ ys, cellAt positions radius a b = some c := by
    intro c
    simp [List.mem_flatMap]
  constructor
  · constructor
    · rintro ⟨c, hc, hcx, hcy⟩
      rw [hmem] at hc
      obtain ⟨a, ha, b, hb, hab⟩ := hc
      rw [cellAt_eq_some] at hab
      obtain ⟨hfil, rfl⟩ := hab
      simp only at hcx hcy
      exact hcx ▸ hcy ▸ hfil
    · intro hfil
      refine ⟨GridCell.mk gx gy
          (((positions.filter (withinRadius gx gy radius)).map
              Position.magnetic_magnitude).sum
            / ((positions.filter (withinRadius gx gy radius)).length : ℚ)),
        ?_, rfl, rfl⟩
      rw [hmem]
      exact ⟨gx, hgx, gy, hgy, (cellAt_eq_some _ _ _ _ _).mpr ⟨hfil, rfl⟩⟩
  · intro c hc hcx hcy
    rw [hmem] at hc
    obtain ⟨a, ha, b, hb, hab⟩ := hc
    rw [cellAt_eq_some] at hab
    obtain ⟨hfil, rfl⟩ := hab
    simp only at hcx hcy ⊢
    rw [hcx, hcy]

/-- Witness for C3 at a concrete two-position set spanning one cell. -/
theorem C3_lattice_cells_witness :
    ∃ xs ys,
      latticeXs [⟨0, 0, 0, 0, "A", 4⟩, ⟨1, 0, 0, 1, "A", 6⟩] 1 3 = some xs ∧
      latticeYs [⟨0, 0, 0, 0, "A", 4⟩, ⟨1, 0, 0, 1, "A", 6⟩] 1 3 = some ys ∧
      ∀ gx ∈ xs, ∀ gy ∈ ys,
        ((∃ c ∈ [(⟨0, 0, 5⟩ : GridCell), ⟨1, 0, 5⟩], c.x = gx ∧ c.y = gy) ↔
          List.filter (withinRadius gx gy 1)
            [⟨0, 0, 0, 0, "A", 4⟩, ⟨1, 0, 0, 1, "A", 6⟩] ≠ []) ∧
        ∀ c ∈ [(⟨0, 0, 5⟩ : GridCell), ⟨1, 0, 5⟩], c.x = gx → c.y = gy →
          c.value = ((List.filter (withinRadius gx gy 1)
                [⟨0, 0, 0, 0, "A", 4⟩, ⟨1, 0, 0, 1, "A", 6⟩]).map
              Position.magnetic_magnitude).sum
            / ((List.filter (withinRadius gx gy 1)
                [⟨0, 0, 0, 0, "A", 4⟩, ⟨1, 0, 0, 1, "A", 6⟩]).length : ℚ) :=
  C3_lattice_cells [⟨0, 0, 0, 0, "A", 4⟩, ⟨1, 0, 0, 1, "A", 6⟩] 1 1 3
    [⟨0, 0, 5⟩, ⟨1, 0, 5⟩] (by simp) (by norm_num) (by norm_num)
    (by norm_num [interpolateMagneticField, outerLoop, innerLoop, stepPoints,
      cellAt, withinRadius, bboxMinX, bboxMinY, bboxMaxX, bboxMaxY])

/-- C9: every cell value of a terminating interpolation lies between any
lower and upper bound of the input magnetic magnitudes — in particular
between their minimum and maximum (each cell value is the mean of a
non-empty subset of the input magnitudes). -/
theorem C9_value_bounds (positions : List Position)
    (gridSize radius lo hi : ℚ) (fuel : Nat) (grid : List GridCell)
    (hne : positions ≠ [])
    (h : interpolateMagneticField positions gridSize radius fuel = some grid)
    (hbound : ∀ p ∈ positions,
      lo ≤ p.magnetic_magnitude ∧ p.magnetic_magnitude ≤ hi) :
    ∀ c ∈ grid, lo ≤ c.value ∧ c.value ≤ hi := by
  obtain ⟨xs, ys, hxs, hys, rfl⟩ :=
    interpolate_some_eq positions gridSize radius fuel grid hne h
  intro c hc
  simp only [List.mem_flatMap, Option.mem_toList, Option.mem_def] at hc
  obtain ⟨a, ha, b, hb, hab⟩ := hc
  rw [cellAt_eq_some] at hab
  obtain ⟨hfil, rfl⟩ := hab
  have hlne : (positions.filter (withinRadius a b radius)).map
      Position.magnetic_magnitude ≠ [] := by
    simpa using hfil
  have hball : ∀ v ∈ (positions.filter (withinRadius a b radius)).map
      Position.magnetic_magnitude, lo ≤ v ∧ v ≤ hi := by
    intro v hv
    simp only [List.mem_map] at hv
    obtain ⟨p, hp, rfl⟩ := hv
    exact hbound p (List.mem_of_mem_filter hp)
  have hmean := sum_div_length_bounds _ hlne lo hi hball
  simpa [List.length_map] using hmean

/-- Witness for C9 at a concrete two-position set with magnitudes 4 and 6,
instantiated at the first emitted cell. -/
theorem C9_value_bounds_witness :
    4 ≤ (⟨0, 0, 5⟩ : GridCell).value ∧ (⟨0, 0, 5⟩ : GridCell).value ≤ 6 :=
  C9_value_bounds [⟨0, 0, 0, 0, "A", 4⟩, ⟨1, 0, 0, 1, "A", 6⟩] 1 1 4 6 3
    [⟨0, 0, 5⟩, ⟨1, 0, 5⟩] (by simp)
    (by norm_num [interpolateMagneticField, outerLoop, innerLoop, stepPoints,
      cellAt, withinRadius, bboxMinX, bboxMinY, bboxMaxX, bboxMaxY])
    (by norm_num)
    ⟨0, 0, 5⟩ (by simp)

/-- C4: on a position set whose `x` coordinates all coincide the computed
cell size is `0`, and the interpolation loops never terminate — for every
amount of fuel the call is still running (the guard the spec requires is
absent from the code). -/
theorem C4_degenerate_bbox_diverges (fuel : Nat) :
    interpolateMagneticField
        [⟨0, 0, 0, 0, "A", 1⟩, ⟨0, 1, 0, 1000, "A", 2⟩] 1 1 fuel = none := by
  show outerLoop _ 1 (bboxMaxX _) (bboxMinY _) (bboxMaxY _) _ fuel fuel
    (bboxMinX _) = none
  apply outerLoop_inner_diverges
  · apply stepPoints_nonpos_step
    · norm_num [bboxMinX, bboxMaxX]
    · norm_num [bboxMinY, bboxMaxY]
  · norm_num [bboxMinX, bboxMaxX]

/-- C5 counterexample: called with the precondition-violating radius `-1`,
the interpolator does not reject the call with an error — it returns
successfully with a silently degenerate (empty) grid. -/
theorem C5_counterexample :
    interpolateMagneticField
        [⟨0, 0, 0, 0, "A", 4⟩, ⟨1, 0, 0, 1, "A", 6⟩] 1 (-1) 3 = some [] := by
  norm_num [interpolateMagneticField, outerLoop, innerLoop, stepPoints,
    cellAt, withinRadius, bboxMinX, bboxMinY, bboxMaxX, bboxMaxY]

/-- C5 amended: the core performs no fail-fast validation.  For a negative
radius the interpolator, whenever it terminates, silently returns the empty
grid rather than rejecting the call; the reconstructor on an empty sequence
fails only by faulting on the undefined first element (`none`), not through
a descriptive precondition check. -/
theorem C5_amended_no_validation :
    (∀ (positions : List Position) (gridSize radius : ℚ) (fuel : Nat)
        (grid : List GridCell), radius < 0 →
        interpolateMagneticField positions gridSize radius fuel = some grid →
        grid = []) ∧
      getPositionFromAcceleration [] = none := by
  constructor
  · intro positions gridSize radius fuel grid hr h
    cases positions with
    | nil =>
      rw [interpolateMagneticField] at h
      exact (Option.some_inj.mp h).symm
    | cons p rest =>
      obtain ⟨xs, ys, hxs, hys, rfl⟩ :=
        interpolate_some_eq _ _ _ _ _ (by simp) h
      have hnone : ∀ a b, cellAt (p :: rest) radius a b = none :=
        fun a b => cellAt_neg_radius _ _ _ _ hr
      simp [hnone]
  · rfl

/-- Witness for C5's amended statement at a concrete negative-radius call. -/
theorem C5_amended_no_validation_witness :
    ([] : List GridCell) = [] ∧ getPositionFromAcceleration [] = none :=
  ⟨C5_amended_no_validation.1
      [⟨0, 0, 0, 0, "A", 4⟩, ⟨1, 0, 0, 1, "A", 6⟩] 1 (-1) 3 []
      (by norm_num)
      (by norm_num [interpolateMagneticField, outerLoop, innerLoop,
        stepPoints, cellAt, withinRadius, bboxMinX, bboxMinY, bboxMaxX,
        bboxMaxY]),
    C5_amended_no_validation.2⟩
